import Mathlib

/-!
Verification of the assetserver package (a file server for web assets).

The development shallowly embeds the Go source: strings are lists of
characters, the path helpers from Go's `path` and `strings` packages are
translated function by function, the content-tag codec (`makeTag`, `isTag`,
`removeTag`, the insertion step of `Server.Tag`) is translated from the
source, and the stateful parts (the per-path fileInfo cache, `tryCachedInfo`,
`openWithInfo`, `readInfo`, `Tag`, `ServeHTTP`) are modelled by explicit
state passing over an abstract file-system environment, recording the
file-system operations each call performs.
-/

set_option autoImplicit false

namespace Assetserver

/-- Go strings are modelled as lists of characters. -/
abbrev Str := List Char

/-- Go `strings.Cut` with a one-character separator: splits at the first
occurrence of the separator, returning the parts before and after it;
`none` when the separator is absent (Go's `ok = false`). -/
def strCut : Str → Char → Option (Str × Str)
  | [], _ => none
  | c :: rest, sep =>
    if c = sep then some ([], rest)
    else
      match strCut rest sep with
      | some (a, b) => some (c :: a, b)
      | none => none

/-- Go `path.Split`: splits a path immediately after the final slash,
returning the directory part (with its trailing slash) and the base. -/
def pathSplit : Str → Str × Str
  | [] => ([], [])
  | c :: rest =>
    if '/' ∈ rest then (c :: (pathSplit rest).1, (pathSplit rest).2)
    else if c = '/' then (['/'], rest)
    else ([], c :: rest)

/-- The backtracking loop of Go `path.Clean` for a ".." element: after one
output position has been dropped, keep dropping while the position is above
`dotdot` and the last dropped character is not a slash.  The output buffer
is kept reversed. -/
def cleanBack (dotdot : Nat) : Str → Char → Str
  | [], _ => []
  | c :: rest, dropped =>
    if dotdot < (c :: rest).length ∧ dropped ≠ '/' then cleanBack dotdot rest c
    else c :: rest

/-- Separator policy of Go `path.Clean` before a new element is copied:
append a slash unless the buffer is at its initial position. -/
def cleanSep (rooted : Bool) (outRev : Str) : Str :=
  if (rooted ∧ outRev.length ≠ 1) ∨ (¬rooted ∧ outRev ≠ []) then '/' :: outRev else outRev

/-- The ".." handling of Go `path.Clean`: either backtrack the output to
the previous slash, or (when not rooted and nothing can be removed) emit a
literal ".." and advance `dotdot`. -/
def cleanDotDot (rooted : Bool) (outRev : Str) (dotdot : Nat) : Str × Nat :=
  if dotdot < outRev.length then
    (match outRev with
     | [] => []
     | c :: rest => cleanBack dotdot rest c, dotdot)
  else if ¬rooted then
    let o : Str := '.' :: '.' :: (if outRev = [] then [] else '/' :: outRev)
    (o, o.length)
  else (outRev, dotdot)

/-- The main loop of Go `path.Clean`, one character at a time.  `inSeg`
records whether the previous character belonged to an element currently
being copied (Go's inner copying loop); `outRev` is the output buffer in
reverse. -/
def cleanLoop : Str → Bool → Str → Nat → Bool → Str
  | [], _, outRev, _, _ => outRev
  | c :: rest, true, outRev, dotdot, rooted =>
    if c = '/' then cleanLoop rest false outRev dotdot rooted
    else cleanLoop rest true (c :: outRev) dotdot rooted
  | c :: rest, false, outRev, dotdot, rooted =>
    if c = '/' then cleanLoop rest false outRev dotdot rooted
    else if c = '.' then
      match rest with
      | [] => outRev
      | c2 :: rest2 =>
        if c2 = '/' then cleanLoop (c2 :: rest2) false outRev dotdot rooted
        else if c2 = '.' ∧ (rest2 = [] ∨ rest2.head? = some '/') then
          cleanLoop rest2 false (cleanDotDot rooted outRev dotdot).1
            (cleanDotDot rooted outRev dotdot).2 rooted
        else cleanLoop (c2 :: rest2) true ('.' :: cleanSep rooted outRev) dotdot rooted
    else cleanLoop rest true (c :: cleanSep rooted outRev) dotdot rooted

/-- The whole loop of Go `path.Clean`: rooted paths start the buffer with
a slash and both `r` and `dotdot` at 1, unrooted paths start empty. -/
def cleanRun (p : Str) : Str :=
  if p.head? = some '/' then cleanLoop p.tail false ['/'] 1 true
  else cleanLoop p false [] 0 false

/-- Go `path.Clean`. -/
def pathClean (p : Str) : Str :=
  if p = [] then ['.']
  else if cleanRun p = [] then ['.'] else (cleanRun p).reverse

/-- Go `path.Join` restricted to two elements, the only arity the source
uses: concatenate the nonempty parts with a slash and clean the result. -/
def pathJoin2 (a b : Str) : Str :=
  if a = [] ∧ b = [] then []
  else if a = [] then pathClean b
  else pathClean (a ++ '/' :: b)

/-- Go `path.Base`: the last element of the path, after trailing slashes
are removed. -/
def pathBase (p : Str) : Str :=
  if p = [] then ['.']
  else
    let p1 := (p.reverse.dropWhile (fun c => c = '/')).reverse
    if p1 = [] then ['/']
    else (p1.reverse.takeWhile (fun c => c ≠ '/')).reverse

/-- Go `path.Ext`: the suffix of the last element from its final dot,
including the dot; empty when the last element has no dot. -/
def pathExt (p : Str) : Str :=
  let r := p.reverse.takeWhile (fun c => c ≠ '/')
  if '.' ∈ r then ((r.takeWhile (fun c => c ≠ '.')) ++ ['.']).reverse else []

/-! The tag codec, translated from the source. -/

/-- The tag length constant of the source. -/
def tagLen : Nat := 10

/-- The base-62 alphabet, exactly the string the package init function
builds from the ranges 0-9, a-z, A-Z. -/
def alphabet62 : Str :=
  "0123456789abcdefghijklmnopqrstuvwxyzABCDEFGHIJKLMNOPQRSTUVWXYZ".toList

/-- The membership table the package init function fills: a character is
in the alphabet iff it lies in one of the three ranges. -/
def inAlphabet (c : Char) : Bool :=
  decide (('0' ≤ c ∧ c ≤ '9') ∨ ('a' ≤ c ∧ c ≤ 'z') ∨ ('A' ≤ c ∧ c ≤ 'Z'))

/-- `isTag` from the source: exactly `tagLen` characters, all from the
alphabet. -/
def isTag (s : Str) : Bool :=
  if s.length ≠ tagLen then false else s.all inAlphabet

/-- Big-endian interpretation of a byte list, as `big.Int.SetBytes`. -/
def beBytesToNat (b : List Nat) : Nat :=
  b.foldl (fun acc x => acc * 256 + x) 0

/-- The `DivMod` loop of `makeTag`: emit base-62 digits of `n`, least
significant digit first, always exactly the requested count (leading
zero-value digits are emitted, not dropped). -/
def makeTagLoop : Nat → Nat → Str
  | _, 0 => []
  | n, k + 1 => alphabet62.getD (n % 62) '0' :: makeTagLoop (n / 62) k

/-- `makeTag` from the source: the first 8 digest bytes read as an
unsigned big-endian integer, written as `tagLen` base-62 characters. -/
def makeTag (b : List Nat) : Str :=
  makeTagLoop (beBytesToNat (b.take 8)) tagLen

/-- `removeTag` from the source: look for an asset tag in the file name
and return the tag together with the name with the tag removed; when no
tag is found, return the empty tag and the original name. -/
def removeTag (s : Str) : Str × Str :=
  let (dir, base) := pathSplit s
  match strCut base '.' with
  | none => ([], s)
  | some (head, tail) =>
    if isTag tail then (tail, pathJoin2 dir head)
    else
      match strCut tail '.' with
      | none => ([], s)
      | some (tag, tail2) =>
        if isTag tag then (tag, pathJoin2 dir (head ++ '.' :: tail2))
        else ([], s)

/-- The name-rewriting step of `Server.Tag`: place the tag just after the
first dot of the base name, or append it after a new dot when the base
name has no dot. -/
def tagInsert (name : Str) (tag : Str) : Str :=
  let (dir, base) := pathSplit name
  match strCut base '.' with
  | some (head, tail) => pathJoin2 dir (head ++ '.' :: (tag ++ '.' :: tail))
  | none => pathJoin2 dir (base ++ '.' :: tag)

/-- One path element of a canonical slash-separated fs path: nonempty, no
slash, and not one of the special elements "." and "..". -/
def isPathElem (e : Str) : Bool :=
  decide (e ≠ [] ∧ '/' ∉ e ∧ e ≠ ['.'] ∧ e ≠ ['.', '.'])

/-- Worker for `validPath`: `cur` holds the current element reversed. -/
def validPathAux : Str → Str → Bool
  | cur, [] => isPathElem cur.reverse
  | cur, c :: rest =>
    if c = '/' then isPathElem cur.reverse && validPathAux [] rest
    else validPathAux (c :: cur) rest

/-- Canonical slash-separated paths as handed to an `fs.FS`: one or more
valid elements separated by single slashes, no leading or trailing slash. -/
def validPath (p : Str) : Bool := validPathAux [] p

/-! The file-system environment and the server-state model.  Stateful Go
code is embedded by explicit state passing; each resolution function also
returns the list of file-system operations it performed, in order. -/

/-- File-system errors at the granularity `writeFSError` distinguishes:
not-exist versus everything else (permission errors, transient failures). -/
inductive FSErr
  | notExist
  | other
deriving DecidableEq

/-- The result of a stat: size, modification time in unix nanoseconds and
the directory bit. -/
structure StatInfo where
  size : Int
  mtime : Int
  isDir : Bool
deriving DecidableEq

/-- The abstract environment: the fs.FS collaborator (stat by name, open,
stat of the open handle, the handle's content, seek) and the external
collaborators (MIME lookup by extension, content sniffing, and the SHA-256
digest, treated as an opaque hash function). -/
structure Env where
  statR : Str → Except FSErr StatInfo
  openR : Str → Except FSErr Unit
  fstatR : Str → Except FSErr StatInfo
  readR : Str → Except FSErr (List Nat)
  seekR : Str → Except FSErr Unit
  mimeByExt : Str → Str
  detectContentType : List Nat → Str
  sha256 : List Nat → List Nat

/-- fileInfo from the source: the cached per-path metadata. -/
structure fileInfo where
  mtime : Int
  size : Int
  tag : Str
  contentType : Str
deriving DecidableEq

/-- The mutable state of a Server: `keys` is the cache map from path to
holder-cell identity (modelling the `*atomic.Pointer` for each path),
`cells` gives each holder's current contents (`none` is the nil pointer)
and `next` is the next fresh holder id. -/
structure SrvState where
  keys : Str → Option Nat
  cells : Nat → Option fileInfo
  next : Nat

/-- The construction-time configuration of a Server. -/
structure Server where
  noCache : Bool

/-- Go `New`: a Server that serves with the normal caching headers. -/
def New : Server := { noCache := false }

/-- Go `NewNoCache`: like New but every asset is served with the
Cache-Control value "no-cache". -/
def NewNoCache : Server := { noCache := true }

/-- The cache map starts empty. -/
def initState : SrvState :=
  { keys := fun _ => none, cells := fun _ => none, next := 0 }

/-- The file-system operations a resolution performs, in order. -/
inductive FSOp
  | statOp (name : Str)
  | openOp (name : Str)
  | fstatOp (name : Str)
  | readOp (name : Str)
  | seekOp (name : Str)
deriving DecidableEq

/-- Resolution errors: a file-system error, or the errNoInfo sentinel of
the source (cached info nonexistent or out of date). -/
inductive ResErr
  | fsErr (e : FSErr)
  | noInfo
deriving DecidableEq

instance instDecEqExcept {ε α : Type} [DecidableEq ε] [DecidableEq α] :
    DecidableEq (Except ε α) := fun x y =>
  match x, y with
  | .ok a, .ok b => if h : a = b then isTrue (by rw [h]) else isFalse (by simp [h])
  | .error a, .error b => if h : a = b then isTrue (by rw [h]) else isFalse (by simp [h])
  | .ok _, .error _ => isFalse (by simp)
  | .error _, .ok _ => isFalse (by simp)

/-- tryCachedInfo from the source: stat the named file (directories are
turned into not-exist); return the cached info when its recorded
(size, mtime) equals the fresh stat, errNoInfo otherwise.  No other
file-system operation is performed and the state is never changed. -/
def tryCachedInfo (env : Env) (σ : SrvState) (name : Str) :
    Except ResErr fileInfo × SrvState × List FSOp :=
  match env.statR name with
  | .error e => (.error (.fsErr e), σ, [.statOp name])
  | .ok fi =>
    if fi.isDir then (.error (.fsErr .notExist), σ, [.statOp name])
    else
      match σ.keys name with
      | none => (.error .noInfo, σ, [.statOp name])
      | some id =>
        match σ.cells id with
        | none => (.error .noInfo, σ, [.statOp name])
        | some info =>
          if fi.size ≠ info.size ∨ fi.mtime ≠ info.mtime then
            (.error .noInfo, σ, [.statOp name])
          else (.ok info, σ, [.statOp name])

/-- readInfo from the source: stat the open handle, then hash the whole
content.  With a known extension the full stream is hashed directly; with
an unknown extension the first 512 bytes are buffered for sniffing while
being hashed, the remainder is hashed afterwards, and the content type is
sniffed from the buffered bytes. -/
def readInfo (env : Env) (name : Str) : Except FSErr fileInfo × List FSOp :=
  match env.fstatR name with
  | .error e => (.error e, [.fstatOp name])
  | .ok st =>
    match env.readR name with
    | .error e => (.error e, [.fstatOp name, .readOp name])
    | .ok content =>
      if env.mimeByExt (pathExt (pathBase name)) ≠ [] then
        (.ok { mtime := st.mtime, size := st.size,
               tag := makeTag (env.sha256 content),
               contentType := env.mimeByExt (pathExt (pathBase name)) },
         [.fstatOp name, .readOp name])
      else
        (.ok { mtime := st.mtime, size := st.size,
               tag := makeTag (env.sha256 (content.take 512 ++ content.drop 512)),
               contentType := env.detectContentType (content.take 512) },
         [.fstatOp name, .readOp name])

/-- The obtain-or-create step of openWithInfo on the cache map: reuse the
existing holder for the path, or allocate a fresh nil cell under a new id;
an existing mapping is never removed or replaced. -/
def getHolder (σ : SrvState) (name : Str) : SrvState × Nat :=
  match σ.keys name with
  | some id => (σ, id)
  | none =>
    ({ keys := fun p => if p = name then some σ.next else σ.keys p,
       cells := fun i => if i = σ.next then none else σ.cells i,
       next := σ.next + 1 }, σ.next)

/-- The recompute-and-publish tail of openWithInfo: read fresh info from
the handle, rewind it, and store the info in the holder (replacement, not
merge); on any error nothing is published. -/
def recomputeInfo (env : Env) (σ1 : SrvState) (id : Nat) (name : Str) :
    Except FSErr fileInfo × SrvState × List FSOp :=
  match readInfo env name with
  | (.error e, ops) => (.error e, σ1, [.openOp name, .fstatOp name] ++ ops)
  | (.ok info, ops) =>
    match env.seekR name with
    | .error e => (.error e, σ1, [.openOp name, .fstatOp name] ++ ops ++ [.seekOp name])
    | .ok _ =>
      (.ok info,
       { keys := σ1.keys,
         cells := fun i => if i = id then some info else σ1.cells i,
         next := σ1.next },
       [.openOp name, .fstatOp name] ++ ops ++ [.seekOp name])

/-- openWithInfo from the source: open the named file, stat the handle,
reject directories, obtain-or-create the holder, reuse the cached info
when its (size, mtime) matches the fresh stat, otherwise recompute and
publish. -/
def openWithInfo (env : Env) (σ : SrvState) (name : Str) :
    Except FSErr fileInfo × SrvState × List FSOp :=
  match env.openR name with
  | .error e => (.error e, σ, [.openOp name])
  | .ok _ =>
    match env.fstatR name with
    | .error e => (.error e, σ, [.openOp name, .fstatOp name])
    | .ok fi =>
      if fi.isDir then (.error .notExist, σ, [.openOp name, .fstatOp name])
      else
        match (getHolder σ name).1.cells (getHolder σ name).2 with
        | some info =>
          if fi.size = info.size ∧ fi.mtime = info.mtime then
            (.ok info, (getHolder σ name).1, [.openOp name, .fstatOp name])
          else recomputeInfo env (getHolder σ name).1 (getHolder σ name).2 name
        | none => recomputeInfo env (getHolder σ name).1 (getHolder σ name).2 name

/-- Go strings.CutPrefix for the single slash, as Tag uses it. -/
def cutSlash : Str → Str × Bool
  | [] => ([], false)
  | c :: rest => if c = '/' then (rest, true) else (c :: rest, false)

/-- Server.Tag: strip one leading slash, resolve the file info (stat-only
fast path first, full recompute on errNoInfo), insert the tag into the
name, and restore the leading slash. -/
def Tag (env : Env) (σ : SrvState) (name : Str) :
    Except ResErr Str × SrvState × List FSOp :=
  match tryCachedInfo env σ (cutSlash name).1 with
  | (.ok info, σ1, t1) =>
    (.ok (if (cutSlash name).2 then '/' :: tagInsert (cutSlash name).1 info.tag
          else tagInsert (cutSlash name).1 info.tag), σ1, t1)
  | (.error .noInfo, σ1, t1) =>
    match openWithInfo env σ1 (cutSlash name).1 with
    | (.ok info, σ2, t2) =>
      (.ok (if (cutSlash name).2 then '/' :: tagInsert (cutSlash name).1 info.tag
            else tagInsert (cutSlash name).1 info.tag), σ2, t1 ++ t2)
    | (.error e, σ2, t2) => (.error (.fsErr e), σ2, t1 ++ t2)
  | (.error (.fsErr e), σ1, t1) => (.error (.fsErr e), σ1, t1)

/-- An HTTP request as ServeHTTP reads it: method, URL path, raw query,
and an optional Content-Type header preset by the caller. -/
structure Request where
  method : Str
  urlPath : Str
  rawQuery : Str
  presetContentType : Option Str

/-- The response ServeHTTP produces: a terminal error response, the
trailing-slash redirect, or delegation to http.ServeContent with the
headers the handler set (`contentType = none` models the nil map entry
that suppresses sniffing). -/
inductive HResponse
  | methodNotAllowed (allow : Str) (body : Str)
  | notFound
  | internalError (body : Str)
  | redirect308 (location : Str)
  | serve (cacheControl : Str) (etag : Str) (contentType : Option Str) (mtime : Int) (name : Str)
deriving DecidableEq

/-- The status code a response carries; `none` for the delegated
conditional-GET/range primitive (it decides 200/206/304 itself). -/
def statusOf : HResponse → Option Nat
  | .methodNotAllowed _ _ => some 405
  | .notFound => some 404
  | .internalError _ => some 500
  | .redirect308 _ => some 308
  | .serve _ _ _ _ _ => none

/-- The Cache-Control header a response carries, when any. -/
def cacheControlOf : HResponse → Option Str
  | .serve cc _ _ _ _ => some cc
  | _ => none

/-- writeFSError from the source: not-exist maps to 404; every other
error maps to a 500 whose body is a fixed opaque string. -/
def writeFSError : FSErr → HResponse
  | .notExist => .notFound
  | .other => .internalError ("500 Internal Server Error\n".toList)

/-- The effective request path: a missing leading slash is added and
written back to `r.URL.Path` before cleaning (the later trailing-slash
check reads this written-back value). -/
def effPath (r : Request) : Str :=
  if r.urlPath.head? = some '/' then r.urlPath else '/' :: r.urlPath

/-- ServeHTTP from the source: method check, path canonicalisation, root
rejection, tag stripping, resolution, tag validation, the trailing-slash
redirect relative to the current resource, cache-policy selection and
header assembly, then delegation. -/
def serveHTTP (env : Env) (s : Server) (σ : SrvState) (r : Request) :
    HResponse × SrvState :=
  if r.method ≠ "GET".toList ∧ r.method ≠ "HEAD".toList then
    (.methodNotAllowed ("GET,HEAD".toList) ("405 Method Not Allowed\n".toList), σ)
  else if pathClean (effPath r) = ['/'] then (.notFound, σ)
  else
    match openWithInfo env σ ((removeTag (pathClean (effPath r))).2.drop 1) with
    | (.error e, σ1, _) => (writeFSError e, σ1)
    | (.ok info, σ1, _) =>
      if (removeTag (pathClean (effPath r))).1 ≠ []
          ∧ (removeTag (pathClean (effPath r))).1 ≠ info.tag then (.notFound, σ1)
      else if (effPath r).getLast? = some '/' then
        (.redirect308 ('.' :: '.' :: '/' :: pathBase (pathClean (effPath r)) ++
          (if r.rawQuery ≠ [] then '?' :: r.rawQuery else [])), σ1)
      else
        (.serve
          (if s.noCache then "no-cache".toList
           else if (removeTag (pathClean (effPath r))).1 = [] then "public, max-age=60".toList
           else "public, max-age=31536000, immutable".toList)
          ('"' :: (info.tag ++ ['"']))
          (match r.presetContentType with
           | some v => some v
           | none => if info.contentType ≠ [] then some info.contentType else none)
          info.mtime (pathClean (effPath r)), σ1)

/-! Concrete instances used as witnesses below: a tiny file system with
one asset "a.js" (content "ajs", newline-terminated), one directory "d",
and one unreadable entry; an opaque stand-in digest function; and a cache
state holding an entry for "a.js". -/

/-- The bytes of "ajs" followed by a newline. -/
def contentAJS : List Nat := [97, 106, 115, 10]

/-- A concrete environment for witnesses. -/
def envC : Env :=
  { statR := fun n => if n = "a.js".toList then .ok ⟨4, 100, false⟩
      else if n = "d".toList then .ok ⟨0, 0, true⟩ else .error .notExist,
    openR := fun n => if n = "a.js".toList then .ok ()
      else if n = "d".toList then .ok ()
      else if n = "secret".toList then .error .other
      else .error .notExist,
    fstatR := fun n => if n = "a.js".toList then .ok ⟨4, 100, false⟩
      else if n = "d".toList then .ok ⟨0, 0, true⟩ else .error .notExist,
    readR := fun n => if n = "a.js".toList then .ok contentAJS else .error .notExist,
    seekR := fun _ => .ok (),
    mimeByExt := fun e => if e = ".js".toList then "text/javascript".toList else [],
    detectContentType := fun _ => "text/plain; charset=utf-8".toList,
    sha256 := fun l => l }

/-- A second environment whose MIME table is empty, forcing the
sniff-while-hashing branch. -/
def envC2 : Env :=
  { envC with mimeByExt := fun _ => [] }

/-- The fileInfo the cache below records for "a.js". -/
def infoAJS : fileInfo :=
  { mtime := 100, size := 4, tag := makeTag contentAJS,
    contentType := "text/javascript".toList }

/-- A cache state holding "a.js" in holder 0. -/
def σW : SrvState :=
  { keys := fun p => if p = "a.js".toList then some 0 else none,
    cells := fun i => if i = 0 then some infoAJS else none,
    next := 1 }

/-- A GET request for a path ending in a slash. -/
def reqSlash : Request :=
  { method := "GET".toList, urlPath := "/a.js/".toList, rawQuery := "v=1".toList,
    presetContentType := none }

/-- A plain GET request for "/a.js". -/
def reqAJS : Request :=
  { method := "GET".toList, urlPath := "/a.js".toList, rawQuery := [],
    presetContentType := none }

/-- A POST request, outside the allowed methods. -/
def reqPOST : Request :=
  { method := "POST".toList, urlPath := "/a.js".toList, rawQuery := [],
    presetContentType := none }

/-- A GET request for the unreadable entry. -/
def reqSecret : Request :=
  { method := "GET".toList, urlPath := "/secret".toList, rawQuery := [],
    presetContentType := none }

/-- The leading 60 bits of a digest: the top 60 bits of its first 8 bytes
read big-endian.  Modelled from the spec's words ("the leading 60 bits of
the file's content digest"), to state the part of the claim the code
refutes. -/
def leading60 (b : List Nat) : Nat := beBytesToNat (b.take 8) / 16

example : removeTag ("d/style.abcABC1234.css".toList)
    = ("abcABC1234".toList, "d/style.css".toList) := by decide
example : removeTag ("a.12312312.js".toList) = ([], "a.12312312.js".toList) := by decide
example : removeTag ("d/sub/noext.xyzXYZxyzX".toList)
    = ("xyzXYZxyzX".toList, "d/sub/noext".toList) := by decide
example : pathClean ("/d/x/../style.css".toList) = "/d/style.css".toList := by decide
example : pathClean ("a//b".toList) = "a/b".toList := by decide
example : pathClean ("/a.js/".toList) = "/a.js".toList := by decide
example : pathBase ("/d/style.css".toList) = "style.css".toList := by decide
example : tagInsert ("d/style.css".toList) ("abcABC1234".toList)
    = "d/style.abcABC1234.css".toList := by decide
example : tagInsert ("d/sub/noext".toList) ("xyzXYZxyzX".toList)
    = "d/sub/noext.xyzXYZxyzX".toList := by decide
example : tagInsert ("x.tar.gz".toList) ("abcABC1234".toList)
    = "x.abcABC1234.tar.gz".toList := by decide
example : validPath ("d/x.tar.gz".toList) = true := by decide
example : validPath ("/a".toList) = false := by decide
example : validPath ("a//b".toList) = false := by decide

/-! Helper lemmas about `strCut`, the tag alphabet, and `makeTag`. -/

theorem strCut_of_not_mem (s : Str) (c : Char) (h : c ∉ s) : strCut s c = none := by
  induction s with
  | nil => rfl
  | cons a rest ih =>
    simp only [List.mem_cons, not_or] at h
    have ha : a ≠ c := fun e => h.1 e.symm
    simp [strCut, ha, ih h.2]

theorem strCut_append (h t : Str) (c : Char) (hh : c ∉ h) :
    strCut (h ++ c :: t) c = some (h, t) := by
  induction h with
  | nil => simp [strCut]
  | cons a rest ih =>
    simp only [List.mem_cons, not_or] at hh
    have ha : a ≠ c := fun e => hh.1 e.symm
    simp [strCut, ha, ih hh.2]

theorem isTag_length (t : Str) (h : isTag t = true) : t.length = 10 := by
  unfold isTag tagLen at h
  split at h
  · exact absurd h (by simp)
  · next hcond => exact not_ne_iff.mp hcond

theorem isTag_mem_alphabet (t : Str) (h : isTag t = true) (c : Char) (hc : c ∈ t) :
    inAlphabet c = true := by
  unfold isTag at h
  split at h
  · exact absurd h (by simp)
  · exact List.all_eq_true.mp h c hc

theorem inAlphabet_ne_dot_slash (c : Char) (h : inAlphabet c = true) : c ≠ '.' ∧ c ≠ '/' := by
  constructor
  · rintro rfl; exact absurd h (by decide)
  · rintro rfl; exact absurd h (by decide)

theorem isTag_not_dot (t : Str) (h : isTag t = true) : '.' ∉ t := fun hm =>
  (inAlphabet_ne_dot_slash _ (isTag_mem_alphabet t h _ hm)).1 rfl

theorem isTag_not_slash (t : Str) (h : isTag t = true) : '/' ∉ t := fun hm =>
  (inAlphabet_ne_dot_slash _ (isTag_mem_alphabet t h _ hm)).2 rfl

theorem isTag_append_dot (t r : Str) (h : isTag t = true) : isTag (t ++ '.' :: r) = false := by
  have hl := isTag_length t h
  have hlen : (t ++ '.' :: r).length ≠ 10 := by
    simp only [List.length_append, List.length_cons, hl]
    omega
  unfold isTag tagLen
  rw [if_pos hlen]

theorem alphabet62_getD_mem : ∀ m, m < 62 → inAlphabet (alphabet62.getD m '0') = true := by
  decide

theorem makeTagLoop_length (k : Nat) : ∀ n, (makeTagLoop n k).length = k := by
  induction k with
  | zero => intro n; rfl
  | succ k ih => intro n; simp [makeTagLoop, ih]

theorem makeTagLoop_all (k : Nat) : ∀ n, (makeTagLoop n k).all inAlphabet = true := by
  induction k with
  | zero => intro n; rfl
  | succ k ih =>
    intro n
    show (alphabet62.getD (n % 62) '0' :: makeTagLoop (n / 62) k).all inAlphabet = true
    rw [List.all_cons, alphabet62_getD_mem (n % 62) (Nat.mod_lt n (by norm_num)), ih]
    rfl

theorem makeTag_length (b : List Nat) : (makeTag b).length = tagLen := by
  simp [makeTag, makeTagLoop_length]

theorem makeTag_isTag (b : List Nat) : isTag (makeTag b) = true := by
  have h1 : (makeTag b).length = tagLen := makeTag_length b
  unfold isTag
  simp only [h1, ne_eq, not_true_eq_false, if_false]
  simp [makeTag, makeTagLoop_all]

theorem makeTagLoop_getD (k : Nat) :
    ∀ n i, i < k → (makeTagLoop n k).getD i '0' = alphabet62.getD ((n / 62 ^ i) % 62) '0' := by
  induction k with
  | zero => intro n i h; exact absurd h (Nat.not_lt_zero i)
  | succ k ih =>
    intro n i h
    cases i with
    | zero =>
      show (alphabet62.getD (n % 62) '0' :: makeTagLoop (n / 62) k).getD 0 '0'
          = alphabet62.getD ((n / 62 ^ 0) % 62) '0'
      rw [List.getD_cons_zero, Nat.pow_zero, Nat.div_one]
    | succ i =>
      have hrec := ih (n / 62) i (Nat.lt_of_succ_lt_succ h)
      have hdiv : n / 62 / 62 ^ i = n / 62 ^ (i + 1) := by
        rw [Nat.div_div_eq_div_mul, Nat.pow_succ, Nat.mul_comm]
      show (alphabet62.getD (n % 62) '0' :: makeTagLoop (n / 62) k).getD (i + 1) '0'
          = alphabet62.getD ((n / 62 ^ (i + 1)) % 62) '0'
      rw [List.getD_cons_succ, hrec, hdiv]

/-- C7 (amended part): the tag encoder reads the digest's first 8 bytes as
an unsigned big-endian integer and emits exactly tagLen base-62 characters
by repeated division, least-significant digit first, keeping leading
zero-value digits; the tag is a valid tag and is determined by the first
8 bytes of the digest. -/
theorem C7_makeTag_encoding (b b' : List Nat) (h8 : b.take 8 = b'.take 8) :
    makeTag b = makeTag b' ∧
    (makeTag b).length = tagLen ∧
    isTag (makeTag b) = true ∧
    (∀ i, i < tagLen →
      (makeTag b).getD i '0' = alphabet62.getD ((beBytesToNat (b.take 8) / 62 ^ i) % 62) '0') := by
  refine ⟨?_, makeTag_length b, makeTag_isTag b, ?_⟩
  · unfold makeTag
    rw [h8]
  · intro i hi
    exact makeTagLoop_getD tagLen (beBytesToNat (b.take 8)) i hi

theorem C7_makeTag_encoding_witness :
    (List.range 32).take 8 = (List.range 8 ++ List.replicate 24 7).take 8 ∧
    makeTag (List.range 32) = makeTag (List.range 8 ++ List.replicate 24 7) :=
  ⟨by decide, (C7_makeTag_encoding (List.range 32) (List.range 8 ++ List.replicate 24 7)
    (by decide)).1⟩

/-- C7 counterexample: two digests that agree on their leading 60 bits but
get different tags, so the tag is not determined by the leading 60 bits
alone (the encoder consumes all 64 bits of the first 8 bytes). -/
theorem C7_counterexample :
    leading60 (List.replicate 8 0) = leading60 (List.replicate 7 0 ++ [1]) ∧
    makeTag (List.replicate 8 0) ≠ makeTag (List.replicate 7 0 ++ [1]) := by
  decide

/-- C6 counterexample: the base name "a.b.0123456789" has three
dot-delimited segments and its final segment is a valid tag, yet removeTag
extracts nothing, because the source tries the suffix after the first dot
(and then the segment between the first two dots), not the final segment. -/
theorem C6_counterexample :
    isTag ("0123456789".toList) = true ∧
    removeTag ("a.b.0123456789".toList) = ([], "a.b.0123456789".toList) := by
  decide

theorem strCut_none_not_mem (s : Str) (c : Char) (h : strCut s c = none) : c ∉ s := by
  induction s with
  | nil => simp
  | cons a rest ih =>
    simp only [List.mem_cons]
    rintro (rfl | hmem)
    · rw [strCut, if_pos rfl] at h
      exact absurd h (by simp)
    · by_cases hac : a = c
      · rw [strCut, if_pos hac] at h
        exact absurd h (by simp)
      · rw [strCut, if_neg hac] at h
        cases hrc : strCut rest c with
        | none => exact ih hrc hmem
        | some v =>
          rw [hrc] at h
          obtain ⟨x, y⟩ := v
          exact absurd h (by simp)

theorem strCut_some_structure (s : Str) (c : Char) :
    ∀ a b, strCut s c = some (a, b) → s = a ++ c :: b ∧ c ∉ a := by
  induction s with
  | nil => intro a b h; exact absurd h (by simp [strCut])
  | cons x rest ih =>
    intro a b h
    by_cases hxc : x = c
    · rw [strCut, if_pos hxc] at h
      obtain ⟨rfl, rfl⟩ : ([] : Str) = a ∧ rest = b := by simpa using h
      subst hxc
      exact ⟨rfl, by simp⟩
    · rw [strCut, if_neg hxc] at h
      cases hrc : strCut rest c with
      | none => rw [hrc] at h; exact absurd h (by simp)
      | some v =>
        obtain ⟨a', b'⟩ := v
        rw [hrc] at h
        obtain ⟨rfl, rfl⟩ : x :: a' = a ∧ b' = b := by simpa using h
        obtain ⟨hs, hnm⟩ := ih a' b' hrc
        refine ⟨by rw [hs]; rfl, ?_⟩
        simp only [List.mem_cons, not_or]
        exact ⟨fun e => hxc e.symm, hnm⟩

theorem pathSplit_no_slash (b : Str) (hb : '/' ∉ b) : pathSplit b = ([], b) := by
  cases b with
  | nil => rfl
  | cons c rest =>
    simp only [List.mem_cons, not_or] at hb
    have h2 : c ≠ '/' := fun e => hb.1 e.symm
    simp [pathSplit, hb.2, h2]

theorem pathSplit_last_slash (x b : Str) (hb : '/' ∉ b) :
    pathSplit (x ++ '/' :: b) = (x ++ ['/'], b) := by
  induction x with
  | nil =>
    show pathSplit ('/' :: b) = (['/'], b)
    simp [pathSplit, hb]
  | cons c rest ih =>
    have hmem : '/' ∈ rest ++ '/' :: b := by simp
    simp [pathSplit, hmem, ih]

theorem pathSplit_append_slash (e p : Str) (he : '/' ∉ e) :
    pathSplit (e ++ '/' :: p) = (e ++ '/' :: (pathSplit p).1, (pathSplit p).2) := by
  induction e with
  | nil =>
    by_cases hp : '/' ∈ p
    · simp [pathSplit, hp]
    · rw [List.nil_append, pathSplit_no_slash p hp]
      simp [pathSplit, hp]
  | cons c rest ih =>
    simp only [List.mem_cons, not_or] at he
    have hmem : '/' ∈ rest ++ '/' :: p := by simp
    simp [pathSplit, hmem, ih he.2]

theorem pathSplit_concat (s : Str) : (pathSplit s).1 ++ (pathSplit s).2 = s := by
  induction s with
  | nil => rfl
  | cons c rest ih =>
    by_cases hm : '/' ∈ rest
    · simpa [pathSplit, hm] using ih
    · by_cases hc : c = '/'
      · simp [pathSplit, hm, hc]
      · simp [pathSplit, hm, hc]

/-- The body of removeTag with the destructuring let spelled out, for
rewriting. -/
theorem removeTag_eq (s : Str) :
    removeTag s =
      (match strCut (pathSplit s).2 '.' with
       | none => ([], s)
       | some (head, tail) =>
         if isTag tail then (tail, pathJoin2 (pathSplit s).1 head)
         else
           match strCut tail '.' with
           | none => ([], s)
           | some (tag, tail2) =>
             if isTag tag then (tag, pathJoin2 (pathSplit s).1 (head ++ '.' :: tail2))
             else ([], s)) := rfl

/-- The body of tagInsert with the destructuring let spelled out, for
rewriting. -/
theorem tagInsert_eq (name tag : Str) :
    tagInsert name tag =
      (match strCut (pathSplit name).2 '.' with
       | some (head, tail) =>
         pathJoin2 (pathSplit name).1 (head ++ '.' :: (tag ++ '.' :: tail))
       | none => pathJoin2 (pathSplit name).1 ((pathSplit name).2 ++ '.' :: tag)) := rfl

/-- C6 (amended): removeTag works on the base component of the name.  It
tries the entire dot-suffix after the first dot of the base as a tag (for
a two-segment base this is the final segment); failing that, it tries the
segment between the first and the second dot; when neither is a valid tag
— in particular whenever a valid tag sits only in the third or a later
segment — it returns the empty tag and the original name unchanged. -/
theorem C6_removeTag_first_dot (s : Str) :
    ('.' ∉ (pathSplit s).2 → removeTag s = ([], s)) ∧
    (∀ h t, (pathSplit s).2 = h ++ '.' :: t → '.' ∉ h →
      (isTag t = true → removeTag s = (t, pathJoin2 (pathSplit s).1 h)) ∧
      (isTag t = false → '.' ∉ t → removeTag s = ([], s)) ∧
      (∀ t1 t2, t = t1 ++ '.' :: t2 → '.' ∉ t1 → isTag t = false →
        removeTag s =
          (if isTag t1 = true then (t1, pathJoin2 (pathSplit s).1 (h ++ '.' :: t2))
           else ([], s)))) := by
  refine ⟨?_, ?_⟩
  · intro hnd
    rw [removeTag_eq, strCut_of_not_mem _ _ hnd]
  · intro h t hbt hh
    refine ⟨?_, ?_, ?_⟩
    · intro htag
      rw [removeTag_eq, hbt, strCut_append _ _ _ hh]
      simp only [htag, if_true]
    · intro hfalse hnd2
      rw [removeTag_eq, hbt, strCut_append _ _ _ hh]
      simp only [hfalse, if_false, Bool.false_eq_true]
      rw [strCut_of_not_mem _ _ hnd2]
    · intro t1 t2 ht1 hnd1 hfalse
      subst ht1
      rw [removeTag_eq, hbt, strCut_append _ _ _ hh]
      simp only [hfalse, if_false, Bool.false_eq_true]
      rw [strCut_append _ _ _ hnd1]

theorem C6_removeTag_first_dot_witness :
    removeTag ("d/style.EI7Zfw9kFp.css".toList)
      = ("EI7Zfw9kFp".toList, pathJoin2 ("d/".toList) ("style.css".toList)) := by
  have h := (C6_removeTag_first_dot ("d/style.EI7Zfw9kFp.css".toList)).2
    ("style".toList) ("EI7Zfw9kFp.css".toList) (by decide) (by decide)
  have h2 := (h.2.2 ("EI7Zfw9kFp".toList) ("css".toList) (by decide) (by decide) (by decide))
  rw [h2, if_pos (by decide)]
  decide

/-! Structure lemmas about `validPath` and the behaviour of `pathClean`
and `pathJoin2` on canonical paths. -/

theorem validPathAux_cons (c : Char) (cur rest : Str) (hc : c ≠ '/') :
    validPathAux cur (c :: rest) = validPathAux (c :: cur) rest := by
  show (if c = '/' then isPathElem cur.reverse && validPathAux [] rest
      else validPathAux (c :: cur) rest) = validPathAux (c :: cur) rest
  rw [if_neg hc]

theorem validPathAux_slash (cur rest : Str) :
    validPathAux cur ('/' :: rest) = (isPathElem cur.reverse && validPathAux [] rest) := by
  show (if ('/' : Char) = '/' then isPathElem cur.reverse && validPathAux [] rest
      else validPathAux ('/' :: cur) rest)
    = (isPathElem cur.reverse && validPathAux [] rest)
  rw [if_pos rfl]

theorem validPathAux_no_slash (b : Str) : ∀ cur, '/' ∉ b →
    validPathAux cur b = isPathElem (cur.reverse ++ b) := by
  induction b with
  | nil => intro cur _; simp [validPathAux]
  | cons c rest ih =>
    intro cur hb
    simp only [List.mem_cons, not_or] at hb
    have hc : c ≠ '/' := fun e => hb.1 e.symm
    rw [validPathAux_cons c cur rest hc, ih (c :: cur) hb.2]
    simp

theorem validPath_of_elem (e : Str) (he : isPathElem e = true) : validPath e = true := by
  have hs : '/' ∉ e := by
    simp only [isPathElem, decide_eq_true_eq] at he
    exact he.2.1
  unfold validPath
  rw [validPathAux_no_slash e [] hs]
  simpa using he

theorem validPath_ne_nil (p : Str) (hp : validPath p = true) : p ≠ [] := by
  rintro rfl
  simp [validPath, validPathAux, isPathElem] at hp

theorem validPath_head_ne_slash (p : Str) (hp : validPath p = true) : p.head? ≠ some '/' := by
  cases p with
  | nil => simp
  | cons c rest =>
    intro hc
    have : c = '/' := by simpa using hc
    subst this
    simp [validPath, validPathAux, isPathElem] at hp

theorem validPathAux_structure : ∀ (p cur : Str), validPathAux cur p = true →
    ('/' ∉ p ∧ isPathElem (cur.reverse ++ p) = true) ∨
    (∃ e p', p = e ++ '/' :: p' ∧ '/' ∉ e ∧ isPathElem (cur.reverse ++ e) = true ∧
      validPathAux [] p' = true) := by
  intro p
  induction p with
  | nil =>
    intro cur h
    left
    exact ⟨by simp, by simpa using h⟩
  | cons c rest ih =>
    intro cur h
    by_cases hc : c = '/'
    · subst hc
      rw [validPathAux_slash, Bool.and_eq_true] at h
      right
      exact ⟨[], rest, by simp, by simp, by simpa using h.1, h.2⟩
    · rw [validPathAux_cons c cur rest hc] at h
      rcases ih (c :: cur) h with ⟨h1, h2⟩ | ⟨e, p', hp, he, helem, hval⟩
      · left
        refine ⟨?_, ?_⟩
        · simp only [List.mem_cons, not_or]
          exact ⟨fun e => hc e.symm, h1⟩
        · simpa using h2
      · right
        refine ⟨c :: e, p', by simp [hp], ?_, ?_, hval⟩
        · simp only [List.mem_cons, not_or]
          exact ⟨fun hx => hc hx.symm, he⟩
        · simpa using helem

theorem validPathAux_elem_append (e : Str) : ∀ (cur rest : Str), '/' ∉ e →
    validPathAux cur (e ++ '/' :: rest) =
      (isPathElem (cur.reverse ++ e) && validPathAux [] rest) := by
  induction e with
  | nil => intro cur rest _; simp [validPathAux]
  | cons c e' ih =>
    intro cur rest he
    simp only [List.mem_cons, not_or] at he
    have hc : c ≠ '/' := fun h => he.1 h.symm
    rw [List.cons_append, validPathAux_cons c cur (e' ++ '/' :: rest) hc,
      ih (c :: cur) rest he.2]
    simp

theorem validPath_append (e p : Str) (he : isPathElem e = true) (hes : '/' ∉ e)
    (hp : validPath p = true) : validPath (e ++ '/' :: p) = true := by
  unfold validPath at *
  rw [validPathAux_elem_append e [] p hes]
  simp [he, hp]

theorem validPath_split_aux : ∀ (n : Nat) (p : Str), p.length ≤ n → validPath p = true →
    isPathElem (pathSplit p).2 = true ∧
    ((pathSplit p).1 = [] ∨ ∃ d, (pathSplit p).1 = d ++ ['/'] ∧ validPath d = true) := by
  intro n
  induction n with
  | zero =>
    intro p hl hp
    exact absurd (List.eq_nil_of_length_eq_zero (Nat.le_zero.mp hl)) (validPath_ne_nil p hp)
  | succ n ih =>
    intro p hl hp
    rcases validPathAux_structure p [] hp with ⟨hns, helem⟩ | ⟨e, p', rfl, hes, helem, hval⟩
    · rw [pathSplit_no_slash p hns]
      exact ⟨by simpa using helem, Or.inl rfl⟩
    · have helem' : isPathElem e = true := by simpa using helem
      rw [pathSplit_append_slash e p' hes]
      have hl' : p'.length ≤ n := by
        simp only [List.length_append, List.length_cons] at hl
        omega
      obtain ⟨h2, hd⟩ := ih p' hl' hval
      refine ⟨h2, Or.inr ?_⟩
      rcases hd with hnil | ⟨d, hd, hdv⟩
      · exact ⟨e, by simp [hnil], validPath_of_elem e helem'⟩
      · exact ⟨e ++ '/' :: d, by simp [hd], validPath_append e d helem' hes hdv⟩

theorem validPath_split (p : Str) (hp : validPath p = true) :
    isPathElem (pathSplit p).2 = true ∧
    ((pathSplit p).1 = [] ∨ ∃ d, (pathSplit p).1 = d ++ ['/'] ∧ validPath d = true) :=
  validPath_split_aux p.length p le_rfl hp

theorem cleanLoop_slash (rest outRev : Str) (dd : Nat) (rooted : Bool) :
    cleanLoop ('/' :: rest) false outRev dd rooted = cleanLoop rest false outRev dd rooted := by
  cases rest with
  | nil =>
    show (if ('/' : Char) = '/' then cleanLoop [] false outRev dd rooted
        else if ('/' : Char) = '.' then outRev
        else cleanLoop [] true ('/' :: cleanSep rooted outRev) dd rooted)
      = cleanLoop [] false outRev dd rooted
    rw [if_pos rfl]
  | cons c2 rest2 =>
    show (if ('/' : Char) = '/' then cleanLoop (c2 :: rest2) false outRev dd rooted
        else if ('/' : Char) = '.' then
          (if c2 = '/' then cleanLoop (c2 :: rest2) false outRev dd rooted
           else if c2 = '.' ∧ (rest2 = [] ∨ rest2.head? = some '/') then
             cleanLoop rest2 false (cleanDotDot rooted outRev dd).1
               (cleanDotDot rooted outRev dd).2 rooted
           else cleanLoop (c2 :: rest2) true ('.' :: cleanSep rooted outRev) dd rooted)
        else cleanLoop (c2 :: rest2) true ('/' :: cleanSep rooted outRev) dd rooted)
      = cleanLoop (c2 :: rest2) false outRev dd rooted
    rw [if_pos rfl]

theorem cleanLoop_true_slash (rest outRev : Str) (dd : Nat) (rooted : Bool) :
    cleanLoop ('/' :: rest) true outRev dd rooted = cleanLoop rest false outRev dd rooted := by
  show (if ('/' : Char) = '/' then cleanLoop rest false outRev dd rooted
      else cleanLoop rest true ('/' :: outRev) dd rooted)
    = cleanLoop rest false outRev dd rooted
  rw [if_pos rfl]

theorem cleanLoop_true_cons (c : Char) (rest outRev : Str) (dd : Nat) (rooted : Bool)
    (hc : c ≠ '/') :
    cleanLoop (c :: rest) true outRev dd rooted = cleanLoop rest true (c :: outRev) dd rooted := by
  show (if c = '/' then cleanLoop rest false outRev dd rooted
      else cleanLoop rest true (c :: outRev) dd rooted)
    = cleanLoop rest true (c :: outRev) dd rooted
  rw [if_neg hc]

theorem cleanLoop_seg_start (c : Char) (rest outRev : Str) (dd : Nat) (rooted : Bool)
    (hc : c ≠ '/') (hcdot : c ≠ '.') :
    cleanLoop (c :: rest) false outRev dd rooted
      = cleanLoop rest true (c :: cleanSep rooted outRev) dd rooted := by
  cases rest with
  | nil =>
    show (if c = '/' then cleanLoop [] false outRev dd rooted
        else if c = '.' then outRev
        else cleanLoop [] true (c :: cleanSep rooted outRev) dd rooted)
      = cleanLoop [] true (c :: cleanSep rooted outRev) dd rooted
    rw [if_neg hc, if_neg hcdot]
  | cons c2 rest2 =>
    show (if c = '/' then cleanLoop (c2 :: rest2) false outRev dd rooted
        else if c = '.' then
          (if c2 = '/' then cleanLoop (c2 :: rest2) false outRev dd rooted
           else if c2 = '.' ∧ (rest2 = [] ∨ rest2.head? = some '/') then
             cleanLoop rest2 false (cleanDotDot rooted outRev dd).1
               (cleanDotDot rooted outRev dd).2 rooted
           else cleanLoop (c2 :: rest2) true ('.' :: cleanSep rooted outRev) dd rooted)
        else cleanLoop (c2 :: rest2) true (c :: cleanSep rooted outRev) dd rooted)
      = cleanLoop (c2 :: rest2) true (c :: cleanSep rooted outRev) dd rooted
    rw [if_neg hc, if_neg hcdot]

theorem cleanLoop_dot_seg (c2 : Char) (rest2 outRev : Str) (dd : Nat) (rooted : Bool)
    (h2 : c2 ≠ '/')
    (hcond : ¬(c2 = '.' ∧ (rest2 = [] ∨ rest2.head? = some '/'))) :
    cleanLoop ('.' :: c2 :: rest2) false outRev dd rooted
      = cleanLoop (c2 :: rest2) true ('.' :: cleanSep rooted outRev) dd rooted := by
  show (if ('.' : Char) = '/' then cleanLoop (c2 :: rest2) false outRev dd rooted
      else if ('.' : Char) = '.' then
        (if c2 = '/' then cleanLoop (c2 :: rest2) false outRev dd rooted
         else if c2 = '.' ∧ (rest2 = [] ∨ rest2.head? = some '/') then
           cleanLoop rest2 false (cleanDotDot rooted outRev dd).1
             (cleanDotDot rooted outRev dd).2 rooted
         else cleanLoop (c2 :: rest2) true ('.' :: cleanSep rooted outRev) dd rooted)
      else cleanLoop (c2 :: rest2) true ('.' :: cleanSep rooted outRev) dd rooted)
    = cleanLoop (c2 :: rest2) true ('.' :: cleanSep rooted outRev) dd rooted
  rw [if_neg (by decide : ¬('.' : Char) = '/'), if_pos rfl, if_neg h2, if_neg hcond]

theorem cleanLoop_copy (e : Str) : ∀ (rem outRev : Str) (dd : Nat) (rooted : Bool),
    '/' ∉ e → (rem = [] ∨ rem.head? = some '/') →
    cleanLoop (e ++ rem) true outRev dd rooted =
      cleanLoop rem false (e.reverse ++ outRev) dd rooted := by
  induction e with
  | nil =>
    intro rem outRev dd rooted _ hrem
    rcases hrem with rfl | hr
    · rfl
    · cases rem with
      | nil => rfl
      | cons a r =>
        have : a = '/' := by simpa using hr
        subst this
        show cleanLoop ('/' :: r) true outRev dd rooted
          = cleanLoop ('/' :: r) false (List.reverse [] ++ outRev) dd rooted
        rw [cleanLoop_true_slash, List.reverse_nil, List.nil_append, cleanLoop_slash]
  | cons c e' ih =>
    intro rem outRev dd rooted he hrem
    simp only [List.mem_cons, not_or] at he
    have hc : c ≠ '/' := fun h => he.1 h.symm
    rw [List.cons_append, cleanLoop_true_cons c (e' ++ rem) outRev dd rooted hc,
      ih rem (c :: outRev) dd rooted he.2 hrem]
    simp

theorem cleanLoop_elem (e rem outRev : Str) (dd : Nat) (he : isPathElem e = true)
    (hrem : rem = [] ∨ rem.head? = some '/') :
    cleanLoop (e ++ rem) false outRev dd false =
      cleanLoop rem false (e.reverse ++ cleanSep false outRev) dd false := by
  obtain ⟨hne, hslash, hdot1, hdot2⟩ :
      e ≠ [] ∧ '/' ∉ e ∧ e ≠ ['.'] ∧ e ≠ ['.', '.'] := by
    simpa [isPathElem, decide_eq_true_eq] using he
  cases e with
  | nil => exact absurd rfl hne
  | cons c e' =>
    have hc : c ≠ '/' := fun h => hslash (by rw [h]; exact List.mem_cons_self _ _)
    have hslashe' : '/' ∉ e' := fun h => hslash (List.mem_cons_of_mem _ h)
    by_cases hcdot : c = '.'
    · subst hcdot
      cases e' with
      | nil => exact absurd rfl hdot1
      | cons c2 e'' =>
        have hc2 : c2 ≠ '/' := fun h => hslashe' (by rw [h]; exact List.mem_cons_self _ _)
        have hcond : ¬(c2 = '.' ∧
            ((e'' : Str) ++ rem = [] ∨ ((e'' : Str) ++ rem).head? = some '/')) := by
          rintro ⟨rfl, hx⟩
          cases e'' with
          | nil => exact hdot2 rfl
          | cons c3 e''' =>
            have hc3 : c3 ≠ '/' := fun h =>
              hslashe' (by rw [← h]; exact List.mem_cons_of_mem _ (List.mem_cons_self _ _))
            rcases hx with hx | hx
            · exact absurd hx (by simp)
            · exact hc3 (by simpa using hx)
        rw [List.cons_append, List.cons_append,
          cleanLoop_dot_seg c2 (e'' ++ rem) outRev dd false hc2 hcond,
          show (c2 :: (e'' ++ rem) : Str) = (c2 :: e'') ++ rem from rfl,
          cleanLoop_copy (c2 :: e'') rem ('.' :: cleanSep false outRev) dd false hslashe' hrem]
        simp
    · rw [List.cons_append, cleanLoop_seg_start c (e' ++ rem) outRev dd false hc hcdot,
        cleanLoop_copy e' rem (c :: cleanSep false outRev) dd false hslashe' hrem]
      simp

theorem cleanSep_false_ne_nil (outRev : Str) (h : outRev ≠ []) :
    cleanSep false outRev = '/' :: outRev := by
  unfold cleanSep
  rw [if_pos]
  right
  exact ⟨by simp, h⟩

theorem cleanLoop_valid : ∀ (n : Nat) (p : Str), p.length ≤ n → validPath p = true →
    ∀ (rem outRev : Str) (dd : Nat), (rem = [] ∨ rem.head? = some '/') →
    cleanLoop (p ++ rem) false outRev dd false =
      cleanLoop rem false (p.reverse ++ cleanSep false outRev) dd false := by
  intro n
  induction n with
  | zero =>
    intro p hl hp
    exact absurd (List.eq_nil_of_length_eq_zero (Nat.le_zero.mp hl)) (validPath_ne_nil p hp)
  | succ n ih =>
    intro p hl hp rem outRev dd hrem
    rcases validPathAux_structure p [] hp with ⟨hns, helem⟩ | ⟨e, p', rfl, hes, helem, hval⟩
    · exact cleanLoop_elem p rem outRev dd (by simpa using helem) hrem
    · have helem' : isPathElem e = true := by simpa using helem
      have hene : e ≠ [] := by
        simp only [isPathElem, decide_eq_true_eq] at helem'
        exact helem'.1
      have hassoc : (e ++ '/' :: p') ++ rem = e ++ '/' :: (p' ++ rem) := by simp
      rw [hassoc, cleanLoop_elem e ('/' :: (p' ++ rem)) outRev dd helem' (Or.inr rfl),
        cleanLoop_slash]
      have hl' : p'.length ≤ n := by
        simp only [List.length_append, List.length_cons] at hl
        omega
      rw [ih p' hl' hval rem _ dd hrem]
      rw [cleanSep_false_ne_nil (e.reverse ++ cleanSep false outRev) (by simp [hene])]
      simp

theorem cleanLoop_valid_nil (p : Str) (hp : validPath p = true) (outRev : Str) (dd : Nat) :
    cleanLoop p false outRev dd false = p.reverse ++ cleanSep false outRev := by
  have h := cleanLoop_valid p.length p le_rfl hp [] outRev dd (Or.inl rfl)
  simpa using h

theorem cleanRun_valid (p : Str) (hp : validPath p = true) : cleanRun p = p.reverse := by
  unfold cleanRun
  rw [if_neg (validPath_head_ne_slash p hp), cleanLoop_valid_nil p hp [] 0]
  have hsep : cleanSep false [] = [] := by decide
  rw [hsep, List.append_nil]

theorem pathClean_valid (p : Str) (hp : validPath p = true) : pathClean p = p := by
  have hne := validPath_ne_nil p hp
  unfold pathClean
  rw [if_neg hne, cleanRun_valid p hp, if_neg (by simpa using hne), List.reverse_reverse]

theorem pathClean_collapse (d b : Str) (hd : validPath d = true) (hb : isPathElem b = true) :
    pathClean (d ++ '/' :: '/' :: b) = d ++ '/' :: b := by
  have hdne := validPath_ne_nil d hd
  have hdhead := validPath_head_ne_slash d hd
  have hne : d ++ '/' :: '/' :: b ≠ [] := by simp
  have hhead : (d ++ '/' :: '/' :: b).head? ≠ some '/' := by
    cases d with
    | nil => exact absurd rfl hdne
    | cons c rest =>
      intro hh
      exact hdhead (by simpa using hh)
  have hrun : cleanRun (d ++ '/' :: '/' :: b) = b.reverse ++ '/' :: d.reverse := by
    unfold cleanRun
    rw [if_neg hhead,
      cleanLoop_valid d.length d le_rfl hd ('/' :: '/' :: b) [] 0 (Or.inr rfl)]
    have hsep : cleanSep false [] = [] := by decide
    rw [hsep, List.append_nil, cleanLoop_slash, cleanLoop_slash]
    have h := cleanLoop_elem b [] d.reverse 0 hb (Or.inl rfl)
    rw [List.append_nil] at h
    rw [h, cleanSep_false_ne_nil d.reverse (by simpa using hdne)]
    rfl
  unfold pathClean
  rw [if_neg hne, hrun, if_neg (by simp)]
  simp

theorem pathJoin2_elem (dir b : Str)
    (hdir : dir = [] ∨ ∃ d, dir = d ++ ['/'] ∧ validPath d = true)
    (hb : isPathElem b = true) : pathJoin2 dir b = dir ++ b := by
  have hbne : b ≠ [] := by
    simp only [isPathElem, decide_eq_true_eq] at hb
    exact hb.1
  rcases hdir with rfl | ⟨d, rfl, hd⟩
  · unfold pathJoin2
    rw [if_neg (by simp [hbne]), if_pos rfl, pathClean_valid b (validPath_of_elem b hb)]
    simp
  · have hdne : d ++ ['/'] ≠ ([] : Str) := by simp
    unfold pathJoin2
    rw [if_neg (by simp [hbne]), if_neg hdne]
    have hform : (d ++ ['/']) ++ '/' :: b = d ++ '/' :: '/' :: b := by simp
    rw [hform, pathClean_collapse d b hd hb]
    simp

/-- C1: for every canonical slash-separated path and every valid tag,
removing the tag from the tagged name produced by Server.Tag's insertion
rule recovers exactly the tag and the original path; this covers
extensionless base names, single-extension base names, and
compound-extension base names such as "x.tar.gz" alike. -/
theorem C1_insert_remove_roundtrip (p t : Str) (hp : validPath p = true)
    (ht : isTag t = true) : removeTag (tagInsert p t) = (t, p) := by
  obtain ⟨hbelem, hdir⟩ := validPath_split p hp
  have hsplit := pathSplit_concat p
  obtain ⟨hbne, hbslash, -, -⟩ :
      (pathSplit p).2 ≠ [] ∧ '/' ∉ (pathSplit p).2 ∧ (pathSplit p).2 ≠ ['.']
        ∧ (pathSplit p).2 ≠ ['.', '.'] := by
    simpa [isPathElem, decide_eq_true_eq] using hbelem
  have htlen := isTag_length t ht
  have htdot := isTag_not_dot t ht
  have htslash := isTag_not_slash t ht
  cases hcut : strCut (pathSplit p).2 '.' with
  | none =>
    have hbdot : '.' ∉ (pathSplit p).2 := strCut_none_not_mem _ _ hcut
    have hnbslash : '/' ∉ (pathSplit p).2 ++ '.' :: t := by
      simp only [List.mem_append, List.mem_cons, not_or]
      exact ⟨hbslash, by decide, htslash⟩
    have hnblen : ((pathSplit p).2 ++ '.' :: t).length = (pathSplit p).2.length + 11 := by
      simp [htlen]
    have hnbelem : isPathElem ((pathSplit p).2 ++ '.' :: t) = true := by
      simp only [isPathElem, decide_eq_true_eq]
      refine ⟨by simp [hbne], hnbslash, ?_, ?_⟩
      · intro hx
        have := congrArg List.length hx
        rw [hnblen] at this
        simp at this
      · intro hx
        have := congrArg List.length hx
        rw [hnblen] at this
        simp at this
    have htagged : tagInsert p t = (pathSplit p).1 ++ ((pathSplit p).2 ++ '.' :: t) := by
      rw [tagInsert_eq, hcut]
      exact pathJoin2_elem _ _ hdir hnbelem
    have hsplit2 : pathSplit (tagInsert p t) = ((pathSplit p).1, (pathSplit p).2 ++ '.' :: t) := by
      rw [htagged]
      rcases hdir with hnil | ⟨d, hd, hdv⟩
      · rw [hnil]
        simpa using pathSplit_no_slash _ hnbslash
      · rw [hd]
        have hform : (d ++ ['/']) ++ ((pathSplit p).2 ++ '.' :: t)
            = d ++ '/' :: ((pathSplit p).2 ++ '.' :: t) := by simp
        rw [hform, pathSplit_last_slash d _ hnbslash]
    rw [removeTag_eq, hsplit2]
    simp only [strCut_append _ _ _ hbdot, ht, if_true]
    rw [pathJoin2_elem _ _ hdir hbelem, hsplit]
  | some ht2 =>
    obtain ⟨head, tail⟩ := ht2
    obtain ⟨hbseq, hheaddot⟩ := strCut_some_structure _ _ _ _ hcut
    have hheadslash : '/' ∉ head := fun hm => hbslash (by rw [hbseq]; simp [hm])
    have htailslash : '/' ∉ tail := fun hm => hbslash (by rw [hbseq]; simp [hm])
    have hnbslash : '/' ∉ head ++ '.' :: (t ++ '.' :: tail) := by
      simp only [List.mem_append, List.mem_cons, not_or]
      exact ⟨hheadslash, by decide, htslash, by decide, htailslash⟩
    have hnblen : (head ++ '.' :: (t ++ '.' :: tail)).length
        = head.length + tail.length + 12 := by
      simp [htlen]
      omega
    have hnbelem : isPathElem (head ++ '.' :: (t ++ '.' :: tail)) = true := by
      simp only [isPathElem, decide_eq_true_eq]
      refine ⟨by simp, hnbslash, ?_, ?_⟩
      · intro hx
        have := congrArg List.length hx
        rw [hnblen] at this
        simp at this
      · intro hx
        have := congrArg List.length hx
        rw [hnblen] at this
        simp at this
    have htagged : tagInsert p t = (pathSplit p).1 ++ (head ++ '.' :: (t ++ '.' :: tail)) := by
      rw [tagInsert_eq, hcut]
      exact pathJoin2_elem _ _ hdir hnbelem
    have hsplit2 : pathSplit (tagInsert p t)
        = ((pathSplit p).1, head ++ '.' :: (t ++ '.' :: tail)) := by
      rw [htagged]
      rcases hdir with hnil | ⟨d, hd, hdv⟩
      · rw [hnil]
        simpa using pathSplit_no_slash _ hnbslash
      · rw [hd]
        have hform : (d ++ ['/']) ++ (head ++ '.' :: (t ++ '.' :: tail))
            = d ++ '/' :: (head ++ '.' :: (t ++ '.' :: tail)) := by simp
        rw [hform, pathSplit_last_slash d _ hnbslash]
    rw [removeTag_eq, hsplit2]
    simp only [strCut_append _ _ _ hheaddot, isTag_append_dot t tail ht,
      Bool.false_eq_true, if_false, strCut_append _ _ _ htdot, ht, if_true]
    rw [← hbseq, pathJoin2_elem _ _ hdir hbelem, hsplit]

theorem C1_insert_remove_roundtrip_witness :
    validPath ("d/x.tar.gz".toList) = true ∧ isTag ("abcABC1234".toList) = true ∧
    removeTag (tagInsert ("d/x.tar.gz".toList) ("abcABC1234".toList))
      = ("abcABC1234".toList, "d/x.tar.gz".toList) :=
  ⟨by decide, by decide,
    C1_insert_remove_roundtrip ("d/x.tar.gz".toList) ("abcABC1234".toList)
      (by decide) (by decide)⟩

/-! Lemmas about the stateful model. -/

theorem cutSlash_no_slash (s : Str) (h : s.head? ≠ some '/') : cutSlash s = (s, false) := by
  cases s with
  | nil => rfl
  | cons c rest =>
    have hc : c ≠ '/' := by simpa using h
    simp [cutSlash, hc]

theorem cutSlash_slash (s : Str) : cutSlash ('/' :: s) = (s, true) := by
  simp [cutSlash]

/-- On a successful read, readInfo's tag is the encoding of the digest of
the full content — in both the known-extension branch and the
sniff-while-hashing branch (the latter hashes the 512-byte prefix and the
remainder, which together are exactly the content). -/
theorem readInfo_tag (env : Env) (name : Str) (content : List Nat) (info : fileInfo)
    (ops : List FSOp) (hread : env.readR name = .ok content)
    (h : readInfo env name = (.ok info, ops)) :
    info.tag = makeTag (env.sha256 content) := by
  unfold readInfo at h
  cases hst : env.fstatR name with
  | error e =>
    rw [hst] at h
    exact absurd h (by simp)
  | ok st =>
    rw [hst, hread] at h
    dsimp only at h
    by_cases hct : env.mimeByExt (pathExt (pathBase name)) ≠ []
    · rw [if_pos hct] at h
      simp only [Prod.mk.injEq, Except.ok.injEq] at h
      rw [← h.1]
    · rw [if_neg hct] at h
      simp only [Prod.mk.injEq, Except.ok.injEq] at h
      rw [← h.1]
      simp only [List.take_append_drop]

/-- C8: the tag computed for a file is a pure function of its content
bytes: for any two resolutions (possibly in different Server instances,
with different names, extensions, modification times, MIME tables and
sniffers) that read identical content and share the digest function, the
freshly computed tags are identical, and each equals the encoding of the
digest of exactly the content bytes. -/
theorem C8_tag_pure_function (env env' : Env) (name name' : Str) (content : List Nat)
    (info info' : fileInfo) (ops ops' : List FSOp)
    (hsha : env.sha256 = env'.sha256)
    (hread : env.readR name = .ok content) (hread' : env'.readR name' = .ok content)
    (h1 : readInfo env name = (.ok info, ops))
    (h2 : readInfo env' name' = (.ok info', ops')) :
    info.tag = info'.tag ∧ info.tag = makeTag (env.sha256 content) := by
  have e1 := readInfo_tag env name content info ops hread h1
  have e2 := readInfo_tag env' name' content info' ops' hread' h2
  rw [e1, e2, hsha]
  exact ⟨rfl, rfl⟩

theorem C8_tag_pure_function_witness :
    ({ mtime := 100, size := 4, tag := makeTag contentAJS,
       contentType := "text/javascript".toList : fileInfo }).tag
      = ({ mtime := 100, size := 4, tag := makeTag contentAJS,
           contentType := "text/plain; charset=utf-8".toList : fileInfo }).tag :=
  (C8_tag_pure_function envC envC2 ("a.js".toList) ("a.js".toList) contentAJS
    { mtime := 100, size := 4, tag := makeTag contentAJS,
      contentType := "text/javascript".toList }
    { mtime := 100, size := 4, tag := makeTag contentAJS,
      contentType := "text/plain; charset=utf-8".toList }
    [.fstatOp ("a.js".toList), .readOp ("a.js".toList)]
    [.fstatOp ("a.js".toList), .readOp ("a.js".toList)]
    rfl (by decide) (by decide) (by decide) (by decide)).1

/-- The state tryCachedInfo returns is always the state it was given. -/
theorem tryCachedInfo_state (env : Env) (σ : SrvState) (name : Str) :
    (tryCachedInfo env σ name).2.1 = σ := by
  unfold tryCachedInfo
  cases env.statR name with
  | error e => rfl
  | ok fi =>
    dsimp only
    by_cases hd : fi.isDir = true
    · rw [if_pos hd]
    · rw [if_neg hd]
      cases σ.keys name with
      | none => rfl
      | some id =>
        dsimp only
        cases σ.cells id with
        | none => rfl
        | some info =>
          dsimp only
          by_cases hm : fi.size ≠ info.size ∨ fi.mtime ≠ info.mtime
          · rw [if_pos hm]
          · rw [if_neg hm]

/-- C4: when the cache holds an entry for the path whose recorded
(size, mtime) equals the fresh stat result, tryCachedInfo returns exactly
the cached fileInfo, leaves the state untouched, and performs only the
single stat — no open, no read; and Server.Tag completes on this fast
path with the same single-stat trace, its result built from the cached
tag. -/
theorem C4_fast_path (env : Env) (σ : SrvState) (name : Str) (id : Nat)
    (info : fileInfo) (st : StatInfo)
    (hstat : env.statR name = .ok st) (hdir : st.isDir = false)
    (hkey : σ.keys name = some id) (hcell : σ.cells id = some info)
    (hsize : st.size = info.size) (hmtime : st.mtime = info.mtime)
    (hnoslash : name.head? ≠ some '/') :
    tryCachedInfo env σ name = (.ok info, σ, [.statOp name]) ∧
    Tag env σ name = (.ok (tagInsert name info.tag), σ, [.statOp name]) := by
  have h1 : tryCachedInfo env σ name = (.ok info, σ, [.statOp name]) := by
    unfold tryCachedInfo
    rw [hstat]
    simp only [hdir, Bool.false_eq_true, if_false, hkey, hcell]
    rw [if_neg (by simp [hsize, hmtime])]
  refine ⟨h1, ?_⟩
  unfold Tag
  rw [cutSlash_no_slash name hnoslash]
  simp only [h1, Bool.false_eq_true, if_false]

theorem C4_fast_path_witness :
    tryCachedInfo envC σW ("a.js".toList)
      = (.ok infoAJS, σW, [.statOp ("a.js".toList)]) ∧
    Tag envC σW ("a.js".toList)
      = (.ok (tagInsert ("a.js".toList) infoAJS.tag), σW, [.statOp ("a.js".toList)]) :=
  C4_fast_path envC σW ("a.js".toList) 0 infoAJS ⟨4, 100, false⟩
    (by decide) (by decide) (by decide) (by decide) (by decide) (by decide) (by decide)

theorem getHolder_keys_mono (σ : SrvState) (name p : Str) (id : Nat)
    (h : σ.keys p = some id) : (getHolder σ name).1.keys p = some id := by
  unfold getHolder
  cases hk : σ.keys name with
  | some j => exact h
  | none =>
    dsimp only
    by_cases hpn : p = name
    · subst hpn
      rw [hk] at h
      exact absurd h (by simp)
    · rw [if_neg hpn]
      exact h

theorem recomputeInfo_keys (env : Env) (σ1 : SrvState) (id : Nat) (name : Str) :
    (recomputeInfo env σ1 id name).2.1.keys = σ1.keys := by
  unfold recomputeInfo
  cases readInfo env name with
  | mk res ops =>
    cases res with
    | error e => rfl
    | ok info =>
      dsimp only
      cases env.seekR name with
      | error e => rfl
      | ok u => rfl

theorem openWithInfo_keys_mono (env : Env) (σ : SrvState) (name p : Str) (id : Nat)
    (h : σ.keys p = some id) : (openWithInfo env σ name).2.1.keys p = some id := by
  unfold openWithInfo
  cases env.openR name with
  | error e => exact h
  | ok u =>
    dsimp only
    cases env.fstatR name with
    | error e => exact h
    | ok fi =>
      dsimp only
      have hg := getHolder_keys_mono σ name p id h
      by_cases hd : fi.isDir = true
      · rw [if_pos hd]
        exact h
      · rw [if_neg hd]
        cases (getHolder σ name).1.cells (getHolder σ name).2 with
        | some info =>
          dsimp only
          by_cases hm : fi.size = info.size ∧ fi.mtime = info.mtime
          · rw [if_pos hm]
            exact hg
          · rw [if_neg hm, recomputeInfo_keys]
            exact hg
        | none =>
          dsimp only
          rw [recomputeInfo_keys]
          exact hg

theorem Tag_keys_mono (env : Env) (σ : SrvState) (n p : Str) (id : Nat)
    (h : σ.keys p = some id) : (Tag env σ n).2.1.keys p = some id := by
  unfold Tag
  cases htc : tryCachedInfo env σ (cutSlash n).1 with
  | mk res rest =>
    obtain ⟨σ1, t1⟩ := rest
    have hσ1 : σ1 = σ := by
      have hts := tryCachedInfo_state env σ (cutSlash n).1
      rw [htc] at hts
      exact hts
    have hσkeys : σ1.keys p = some id := by rw [hσ1]; exact h
    cases res with
    | ok info => exact hσkeys
    | error e =>
      cases e with
      | fsErr e2 => exact hσkeys
      | noInfo =>
        dsimp only
        cases how : openWithInfo env σ1 (cutSlash n).1 with
        | mk res2 rest2 =>
          obtain ⟨σ2, t2⟩ := rest2
          have hmono := openWithInfo_keys_mono env σ1 (cutSlash n).1 p id hσkeys
          rw [how] at hmono
          cases res2 with
          | ok info => exact hmono
          | error e2 => exact hmono

theorem serveHTTP_keys_mono (env : Env) (s : Server) (σ : SrvState) (r : Request)
    (p : Str) (id : Nat) (h : σ.keys p = some id) :
    (serveHTTP env s σ r).2.keys p = some id := by
  unfold serveHTTP
  by_cases hm : r.method ≠ "GET".toList ∧ r.method ≠ "HEAD".toList
  · rw [if_pos hm]
    exact h
  · rw [if_neg hm]
    by_cases hroot : pathClean (effPath r) = ['/']
    · rw [if_pos hroot]
      exact h
    · rw [if_neg hroot]
      cases how : openWithInfo env σ ((removeTag (pathClean (effPath r))).2.drop 1) with
      | mk res rest =>
        obtain ⟨σ1, tr⟩ := rest
        have hmono := openWithInfo_keys_mono env σ
          ((removeTag (pathClean (effPath r))).2.drop 1) p id h
        rw [how] at hmono
        cases res with
        | error e => exact hmono
        | ok info =>
          dsimp only
          by_cases ht : (removeTag (pathClean (effPath r))).1 ≠ []
              ∧ (removeTag (pathClean (effPath r))).1 ≠ info.tag
          · rw [if_pos ht]
            exact hmono
          · rw [if_neg ht]
            by_cases hsl : (effPath r).getLast? = some '/'
            · rw [if_pos hsl]
              exact hmono
            · rw [if_neg hsl]
              exact hmono

/-- C9: the path→holder cache map only grows: any binding present before
a ServeHTTP or Tag call — or before the resolution steps they invoke —
is still present afterwards with the same holder id, so keys are never
removed and the holder cell of a path is never replaced (publication only
swaps the cell's contents, never the cell). -/
theorem C9_cache_monotone (env : Env) (s : Server) (σ : SrvState) (r : Request)
    (n p : Str) (id : Nat) (h : σ.keys p = some id) :
    (serveHTTP env s σ r).2.keys p = some id ∧
    (Tag env σ n).2.1.keys p = some id ∧
    (tryCachedInfo env σ n).2.1.keys p = some id ∧
    (openWithInfo env σ n).2.1.keys p = some id :=
  ⟨serveHTTP_keys_mono env s σ r p id h, Tag_keys_mono env σ n p id h,
   by rw [tryCachedInfo_state]; exact h, openWithInfo_keys_mono env σ n p id h⟩

theorem C9_cache_monotone_witness :
    (serveHTTP envC New σW reqAJS).2.keys ("a.js".toList) = some 0 :=
  (C9_cache_monotone envC New σW reqAJS ("a.js".toList) ("a.js".toList) 0 (by decide)).1

/-- C10: Server.Tag strips one leading slash before resolving and
re-prefixes it to the result: for a name without its own leading slash,
Tag on "/" ++ n fails exactly when Tag on n fails (same error, state and
operation trace), and on success returns "/" followed by the value Tag n
returns. -/
theorem C10_tag_leading_slash (env : Env) (σ : SrvState) (n : Str)
    (hn : n.head? ≠ some '/') :
    Tag env σ ('/' :: n) =
      (match Tag env σ n with
       | (.ok t, σ1, tr) => (.ok ('/' :: t), σ1, tr)
       | (.error e, σ1, tr) => (.error e, σ1, tr)) := by
  have hcs : cutSlash ('/' :: n) = (n, true) := cutSlash_slash n
  have hcs2 : cutSlash n = (n, false) := cutSlash_no_slash n hn
  unfold Tag
  rw [hcs, hcs2]
  dsimp only
  cases tryCachedInfo env σ n with
  | mk res rest =>
    obtain ⟨σ1, t1⟩ := rest
    cases res with
    | ok info => simp
    | error e =>
      cases e with
      | fsErr e2 => rfl
      | noInfo =>
        dsimp only
        cases openWithInfo env σ1 n with
        | mk res2 rest2 =>
          obtain ⟨σ2, t2⟩ := rest2
          cases res2 with
          | ok info => simp
          | error e2 => rfl

theorem C10_tag_leading_slash_witness :
    Tag envC σW ("/a.js".toList) =
      (match Tag envC σW ("a.js".toList) with
       | (.ok t, σ1, tr) => (.ok ('/' :: t), σ1, tr)
       | (.error e, σ1, tr) => (.error e, σ1, tr)) :=
  C10_tag_leading_slash envC σW ("a.js".toList) (by decide)

theorem method_ok (r : Request) (hm : r.method = "GET".toList ∨ r.method = "HEAD".toList) :
    ¬(r.method ≠ "GET".toList ∧ r.method ≠ "HEAD".toList) := by
  rcases hm with h | h <;> simp [h]

theorem effPath_getLast (r : Request) (h : r.urlPath.getLast? = some '/') :
    (effPath r).getLast? = some '/' := by
  unfold effPath
  split
  · exact h
  · cases hu : r.urlPath with
    | nil => rw [hu] at h; simp at h
    | cons c rest =>
      rw [hu] at h
      show ('/' :: c :: rest).getLast? = some '/'
      rw [List.getLast?_cons_cons]
      exact h

/-- C2 (amended): for every GET or HEAD request that resolves successfully
with an absent or matching tag and is actually served — its effective path
does not end in a slash, so it is not answered by the trailing-slash
redirect — the Cache-Control header is exactly one of the three policy
values, selected as the claim states: "no-cache" for a NewNoCache server
in both tag cases, the long immutable value for a tagged request on a New
server, and the short public value for an untagged request on a New
server. -/
theorem C2_cache_control (env : Env) (σ : SrvState) (r : Request) (info : fileInfo)
    (hmethod : r.method = "GET".toList ∨ r.method = "HEAD".toList)
    (hroot : pathClean (effPath r) ≠ ['/'])
    (hres : (openWithInfo env σ ((removeTag (pathClean (effPath r))).2.drop 1)).1
      = .ok info)
    (htag : (removeTag (pathClean (effPath r))).1 = []
      ∨ (removeTag (pathClean (effPath r))).1 = info.tag)
    (hnoslash : (effPath r).getLast? ≠ some '/') :
    (cacheControlOf (serveHTTP env NewNoCache σ r).1 = some ("no-cache".toList)) ∧
    ((removeTag (pathClean (effPath r))).1 = [] →
      cacheControlOf (serveHTTP env New σ r).1 = some ("public, max-age=60".toList)) ∧
    ((removeTag (pathClean (effPath r))).1 ≠ [] →
      cacheControlOf (serveHTTP env New σ r).1
        = some ("public, max-age=31536000, immutable".toList)) ∧
    (∀ s : Server, cacheControlOf (serveHTTP env s σ r).1 = some ("no-cache".toList)
      ∨ cacheControlOf (serveHTTP env s σ r).1 = some ("public, max-age=60".toList)
      ∨ cacheControlOf (serveHTTP env s σ r).1
          = some ("public, max-age=31536000, immutable".toList)) := by
  have hserve : ∀ s : Server, cacheControlOf (serveHTTP env s σ r).1
      = some (if s.noCache then "no-cache".toList
          else if (removeTag (pathClean (effPath r))).1 = [] then "public, max-age=60".toList
          else "public, max-age=31536000, immutable".toList) := by
    intro s
    unfold serveHTTP
    rw [if_neg (method_ok r hmethod), if_neg hroot]
    cases how : openWithInfo env σ ((removeTag (pathClean (effPath r))).2.drop 1) with
    | mk res rest =>
      obtain ⟨σ1, tr⟩ := rest
      rw [how] at hres
      dsimp only at hres
      subst hres
      dsimp only
      rw [if_neg (by rcases htag with h | h <;> simp [h]), if_neg hnoslash]
      rfl
  refine ⟨?_, ?_, ?_, ?_⟩
  · rw [hserve NewNoCache]
    rfl
  · intro h0
    rw [hserve New]
    simp [New, h0]
  · intro h0
    rw [hserve New]
    simp [New, h0]
  · intro s
    rw [hserve s]
    by_cases hnc : s.noCache = true
    · left
      simp [hnc]
    · by_cases h0 : (removeTag (pathClean (effPath r))).1 = []
      · right; left
        simp [hnc, h0]
      · right; right
        simp [hnc, h0]

theorem C2_cache_control_witness :
    cacheControlOf (serveHTTP envC New initState reqAJS).1
      = some ("public, max-age=60".toList) :=
  ((C2_cache_control envC initState reqAJS infoAJS (by decide) (by decide)
    (by decide) (by decide) (by decide)).2.1) (by decide)

/-- C2 counterexample: a GET request that resolves successfully with an
absent tag but whose raw path ends in a slash is answered by the 308
redirect, which carries no Cache-Control header at all, so the claim's
statement does not hold for every successfully resolving GET request. -/
theorem C2_counterexample :
    (serveHTTP envC New initState reqSlash).1 = .redirect308 ("../a.js?v=1".toList) ∧
    cacheControlOf (serveHTTP envC New initState reqSlash).1 = none := by
  decide

theorem openWithInfo_dir (env : Env) (σ : SrvState) (name : Str) (fi : StatInfo)
    (ho : env.openR name = .ok ()) (hf : env.fstatR name = .ok fi) (hd : fi.isDir = true) :
    (openWithInfo env σ name).1 = .error .notExist := by
  unfold openWithInfo
  rw [ho]
  dsimp only
  rw [hf]
  dsimp only
  rw [if_pos hd]

/-- C3: the error taxonomy of the handler: a non-GET/HEAD method is a 405
whose Allow header lists GET and HEAD; the canonical root path, a
not-exist resolution failure (absent file, and a directory — which the
resolution itself turns into not-exist), and a tagged name whose tag
differs from the resolved tag are 404s; any other resolution failure is a
500 whose body is the fixed opaque string, mentioning neither the path
nor the underlying error. -/
theorem C3_error_taxonomy (env : Env) (s : Server) (σ : SrvState) (r : Request) :
    (r.method ≠ "GET".toList ∧ r.method ≠ "HEAD".toList →
      (serveHTTP env s σ r).1
        = .methodNotAllowed ("GET,HEAD".toList) ("405 Method Not Allowed\n".toList)) ∧
    ((r.method = "GET".toList ∨ r.method = "HEAD".toList) →
      pathClean (effPath r) = ['/'] → (serveHTTP env s σ r).1 = .notFound) ∧
    ((r.method = "GET".toList ∨ r.method = "HEAD".toList) →
      pathClean (effPath r) ≠ ['/'] →
      (openWithInfo env σ ((removeTag (pathClean (effPath r))).2.drop 1)).1
        = .error .notExist →
      (serveHTTP env s σ r).1 = .notFound) ∧
    ((r.method = "GET".toList ∨ r.method = "HEAD".toList) →
      pathClean (effPath r) ≠ ['/'] →
      (openWithInfo env σ ((removeTag (pathClean (effPath r))).2.drop 1)).1
        = .error .other →
      (serveHTTP env s σ r).1 = .internalError ("500 Internal Server Error\n".toList)) ∧
    (∀ info, (r.method = "GET".toList ∨ r.method = "HEAD".toList) →
      pathClean (effPath r) ≠ ['/'] →
      (openWithInfo env σ ((removeTag (pathClean (effPath r))).2.drop 1)).1 = .ok info →
      (removeTag (pathClean (effPath r))).1 ≠ [] →
      (removeTag (pathClean (effPath r))).1 ≠ info.tag →
      (serveHTTP env s σ r).1 = .notFound) ∧
    (∀ name fi, env.openR name = .ok () → env.fstatR name = .ok fi → fi.isDir = true →
      (openWithInfo env σ name).1 = .error .notExist) := by
  refine ⟨?_, ?_, ?_, ?_, ?_, ?_⟩
  · intro hm
    unfold serveHTTP
    rw [if_pos hm]
  · intro hm hroot
    unfold serveHTTP
    rw [if_neg (method_ok r hm), if_pos hroot]
  · intro hm hroot hres
    unfold serveHTTP
    rw [if_neg (method_ok r hm), if_neg hroot]
    cases how : openWithInfo env σ ((removeTag (pathClean (effPath r))).2.drop 1) with
    | mk res rest =>
      obtain ⟨σ1, tr⟩ := rest
      rw [how] at hres
      dsimp only at hres
      subst hres
      rfl
  · intro hm hroot hres
    unfold serveHTTP
    rw [if_neg (method_ok r hm), if_neg hroot]
    cases how : openWithInfo env σ ((removeTag (pathClean (effPath r))).2.drop 1) with
    | mk res rest =>
      obtain ⟨σ1, tr⟩ := rest
      rw [how] at hres
      dsimp only at hres
      subst hres
      rfl
  · intro info hm hroot hres htagne htagmis
    unfold serveHTTP
    rw [if_neg (method_ok r hm), if_neg hroot]
    cases how : openWithInfo env σ ((removeTag (pathClean (effPath r))).2.drop 1) with
    | mk res rest =>
      obtain ⟨σ1, tr⟩ := rest
      rw [how] at hres
      dsimp only at hres
      subst hres
      dsimp only
      rw [if_pos ⟨htagne, htagmis⟩]
  · intro name fi ho hf hd
    exact openWithInfo_dir env σ name fi ho hf hd

theorem C3_error_taxonomy_witness :
    (serveHTTP envC New initState reqPOST).1
      = .methodNotAllowed ("GET,HEAD".toList) ("405 Method Not Allowed\n".toList) :=
  (C3_error_taxonomy envC New initState reqPOST).1 (by decide)

/-- C5: a GET or HEAD request whose raw path ends in a slash and whose
canonical slash-stripped path resolves successfully with an absent or
matching tag is answered by a 308 permanent redirect whose Location is
the relative path "../" followed by the base name of the canonical path,
with the query string appended verbatim when nonempty; the Location never
starts with a slash, so it is never an absolute path. -/
theorem C5_trailing_slash_redirect (env : Env) (s : Server) (σ : SrvState) (r : Request)
    (info : fileInfo)
    (hmethod : r.method = "GET".toList ∨ r.method = "HEAD".toList)
    (hslash : r.urlPath.getLast? = some '/')
    (hroot : pathClean (effPath r) ≠ ['/'])
    (hres : (openWithInfo env σ ((removeTag (pathClean (effPath r))).2.drop 1)).1 = .ok info)
    (htag : (removeTag (pathClean (effPath r))).1 = []
      ∨ (removeTag (pathClean (effPath r))).1 = info.tag) :
    (serveHTTP env s σ r).1 =
      .redirect308 ('.' :: '.' :: '/' :: pathBase (pathClean (effPath r)) ++
        (if r.rawQuery ≠ [] then '?' :: r.rawQuery else [])) ∧
    (∀ loc, (serveHTTP env s σ r).1 = .redirect308 loc → loc.head? ≠ some '/') := by
  have h1 : (serveHTTP env s σ r).1 =
      .redirect308 ('.' :: '.' :: '/' :: pathBase (pathClean (effPath r)) ++
        (if r.rawQuery ≠ [] then '?' :: r.rawQuery else [])) := by
    unfold serveHTTP
    rw [if_neg (method_ok r hmethod), if_neg hroot]
    cases how : openWithInfo env σ ((removeTag (pathClean (effPath r))).2.drop 1) with
    | mk res rest =>
      obtain ⟨σ1, tr⟩ := rest
      rw [how] at hres
      dsimp only at hres
      subst hres
      dsimp only
      rw [if_neg (by rcases htag with h | h <;> simp [h]),
        if_pos (effPath_getLast r hslash)]
  refine ⟨h1, ?_⟩
  intro loc hloc
  rw [h1] at hloc
  simp only [HResponse.redirect308.injEq] at hloc
  rw [← hloc]
  simp

theorem C5_trailing_slash_redirect_witness :
    (serveHTTP envC New initState reqSlash).1 =
      .redirect308 ('.' :: '.' :: '/' :: pathBase (pathClean (effPath reqSlash)) ++
        (if reqSlash.rawQuery ≠ [] then '?' :: reqSlash.rawQuery else [])) :=
  (C5_trailing_slash_redirect envC New initState reqSlash infoAJS (by decide) (by decide)
    (by decide) (by decide) (by decide)).1

end Assetserver
